import Mathlib

/-
  Verification of the felica-dumper core against its specification.

  Shallow embedding of src/felica_dumper: the pure parts are translated to
  Lean functions; calls into the transceiver / crypto layer (nfcpy) are
  modelled as explicit oracle arguments; Python exceptions raised by an
  oracle are modelled as Option.none / Except.error results; Python dicts
  are modelled as insertion-ordered association lists.
-/

namespace FelicaDumper

/-! Section: Service grouper (src/felica_dumper/core/service_processor.py, group_overlapped_services) -/

/-- Loop of `ServiceProcessor.group_overlapped_services`: `sgs` is the
`service_groups` accumulator, `cg` the `current_group` accumulator, and the
third argument the remaining input.  Mirrors the Python loop body: a code is
appended to the open group when `service >> 4 == last_service >> 4` and
(`service >> 4 & 1` is nonzero, or `service >> 2 == last_service >> 2`);
otherwise the open group is closed and a new one is started. -/
def groupGo : List (List Nat) → List Nat → List Nat → List (List Nat)
  | sgs, cg, [] => if cg.isEmpty then sgs else sgs ++ [cg]
  | sgs, [], s :: rest => groupGo sgs [s] rest
  | sgs, c :: cs, s :: rest =>
    if s >>> 4 = (c :: cs).getLast (by simp) >>> 4 then
      if (s >>> 4) &&& 1 = 1 then groupGo sgs (c :: cs ++ [s]) rest
      else if s >>> 2 = (c :: cs).getLast (by simp) >>> 2 then
        groupGo sgs (c :: cs ++ [s]) rest
      else groupGo (sgs ++ [c :: cs]) [s] rest
    else groupGo (sgs ++ [c :: cs]) [s] rest

/-- `ServiceProcessor.group_overlapped_services`. -/
def group_overlapped_services (services : List Nat) : List (List Nat) :=
  groupGo [] [] services

/-- The extension condition exactly as claim C3 words it: the group is
extended when `(code >> 4) = (last >> 4)` and either bit 4 of that shifted
value is set, or `(code >> 2) = (last >> 2)`.  (Modelled from the claim's
words, to be compared with the source.) -/
def claimedExtendCond (last s : Nat) : Bool :=
  (s >>> 4 == last >>> 4) && ((((s >>> 4) >>> 4) &&& 1 == 1) || (s >>> 2 == last >>> 2))

/-- The extension condition actually implemented by the source: the purse
test reads bit 0 of the shifted value `code >> 4` (that is, bit 4 of the
original code). -/
def overlapExtendCond (last s : Nat) : Bool :=
  (s >>> 4 == last >>> 4) && ((((s >>> 4) &&& 1) == 1) || (s >>> 2 == last >>> 2))

/-- Grouping loop driven by the single predicate `overlapExtendCond`,
structured from the amended claim's words: extend the open group exactly
when the predicate holds of (last placed code, next code), otherwise close
the group and start a new one. -/
def ruleGroupGo : List (List Nat) → List Nat → List Nat → List (List Nat)
  | sgs, cg, [] => if cg.isEmpty then sgs else sgs ++ [cg]
  | sgs, [], s :: rest => ruleGroupGo sgs [s] rest
  | sgs, c :: cs, s :: rest =>
    if overlapExtendCond ((c :: cs).getLast (by simp)) s then
      ruleGroupGo sgs (c :: cs ++ [s]) rest
    else ruleGroupGo (sgs ++ [c :: cs]) [s] rest

/-- Grouping by the amended rule. -/
def group_by_rule (services : List Nat) : List (List Nat) :=
  ruleGroupGo [] [] services

/-! Section: Processing-order optimizer (src/felica_dumper/utils/helpers.py) -/

/-- Python `any(sc & 1 for sc in service_group)`. -/
def hasNoAuthMember (g : List Nat) : Bool :=
  g.any fun sc => sc &&& 1 == 1

/-- Loop of `optimize_service_processing_order`: groups with some member
whose LSB is set are appended to `no_auth_groups`, the rest to
`auth_groups`, preserving input order. -/
def optGo : List (List Nat) → List (List Nat) → List (List Nat) →
    List (List Nat) × List (List Nat)
  | na, au, [] => (na, au)
  | na, au, g :: rest =>
    if hasNoAuthMember g then optGo (na ++ [g]) au rest
    else optGo na (au ++ [g]) rest

/-- `optimize_service_processing_order`. -/
def optimize_service_processing_order (service_groups : List (List Nat)) :
    List (List Nat) × List (List Nat) :=
  optGo [] [] service_groups

/-! Section: Per-group read selection (src/felica_dumper/core/service_processor.py,
process_service_group and process_single_service) -/

/-- Whether a read attempt will authenticate. -/
inductive ReadMode where
  | noAuth : ReadMode
  | withAuth : ReadMode
  deriving DecidableEq, Repr

/-- `AuthenticationHandler.requires_authentication`: Python
`not (service_code & 1)`, true iff the LSB is 0. -/
def requires_authentication (service_code : Nat) : Bool :=
  service_code &&& 1 == 0

/-- The (member, mode) pair attempted for a service group, as decided by
`process_service_group`: a singleton group follows
`requires_authentication` on its single code; a larger group builds
`no_auth_services = [sc for sc in service_group if sc & 1]` and reads the
last of them without authentication when nonempty, otherwise reads the
first member of the group with authentication.  A Python empty group would
raise an IndexError; it is modelled as `none`. -/
def selected_read : List Nat → Option (Nat × ReadMode)
  | [] => none
  | [sc] => some (sc, if requires_authentication sc then .withAuth else .noAuth)
  | s :: s2 :: rest =>
    match ((s :: s2 :: rest).filter fun sc => sc &&& 1 == 1).getLast? with
    | some sc => some (sc, .noAuth)
    | none => some (s, .withAuth)

/-! Section: Card-structure walker (src/felica_dumper/core/tag_reader.py,
discover_areas_and_services).  The transceiver's `search_service_code`
primitive is an oracle `f : Nat → Option (List Nat)`; `none` models the
"nothing found" reply that terminates discovery. -/

/-- One-step unrolling of the discovery loop starting at index `i` with the
given remaining iteration budget (the source caps the loop at index
0x10000).  Returns (areas, services, number of queries made): a length-1
answer is appended to services, a length-2 answer to areas, any other
answer to neither. -/
def discoverGo (f : Nat → Option (List Nat)) : Nat → Nat → List (Nat × Nat) × List Nat × Nat
  | _, 0 => ([], [], 0)
  | i, fuel + 1 =>
    match f i with
    | none => ([], [], 1)
    | some ans =>
      match ans, discoverGo f (i + 1) fuel with
      | [s], (ar, se, q) => (ar, s :: se, q + 1)
      | [a, b], (ar, se, q) => ((a, b) :: ar, se, q + 1)
      | _, (ar, se, q) => (ar, se, q + 1)

/-- `TagReader.discover_areas_and_services`, instrumented with the number of
`search_service_code` queries performed. -/
def discover_areas_and_services (f : Nat → Option (List Nat)) :
    List (Nat × Nat) × List Nat × Nat :=
  discoverGo f 0 65536

/-- The sequence of answers the walker receives, in query order, starting at
index `i` with the given budget: it ends at the first `none` answer. -/
def answeredFrom (f : Nat → Option (List Nat)) : Nat → Nat → List (List Nat)
  | _, 0 => []
  | i, fuel + 1 =>
    match f i with
    | none => []
    | some ans => ans :: answeredFrom f (i + 1) fuel

/-- A two-code answer, as an area range. -/
def pairOf : List Nat → Option (Nat × Nat)
  | [a, b] => some (a, b)
  | _ => none

/-- A single-code answer, as a service code. -/
def singleOf : List Nat → Option Nat
  | [s] => some s
  | _ => none

/-! Section: Key-version resolver batching (src/felica_dumper/core/tag_reader.py,
get_key_versions_batch and process_codes_in_batches).  The transceiver's
`request_service_v2` and `request_service` are oracles
`v2 v1 : List Nat → Option (List KeyVer)`; `none` models a raised
exception. -/

/-- A key-version query result: a single legacy tag (v1) or a dual
AES/DES tag pair (v2). -/
inductive KeyVer where
  | legacy (v : Nat) : KeyVer
  | dual (aes : Nat) (des : Option Nat) : KeyVer
  deriving DecidableEq, Repr

/-- `TagReader.get_key_versions_batch`: try the v2 query; on any failure
fall back to the v1 query for the whole batch; `none` when both fail (both
exceptions are swallowed). -/
def get_key_versions_batch (v2 v1 : List Nat → Option (List KeyVer))
    (service_codes : List Nat) : Option (List KeyVer) :=
  match v2 service_codes with
  | some rs => some rs
  | none => v1 service_codes

/-- The per-chunk assignment loop `for j, code in enumerate(batch_codes)`:
pairs each code with its result; the Bool records whether the results list
ran out early (a Python IndexError, caught by the outer handler), in which
case the already-assigned prefix is kept. -/
def assignBatch : List Nat → List KeyVer → List (Nat × KeyVer) × Bool
  | [], _ => ([], false)
  | _ :: _, [] => ([], true)
  | c :: cs, r :: rs => ((c, r) :: (assignBatch cs rs).1, (assignBatch cs rs).2)

/-- Fuel-indexed loop of `TagReader.process_codes_in_batches`: `i` is the
Python slice start (so the printed batch number is `i / 32 + 1`); each pass
takes a chunk of at most 32 codes, queries it via
`get_key_versions_batch`, and either assigns the results or, when the batch
query returned `none`, silently contributes nothing.  Warnings are recorded
as the batch numbers named by the printed message, and are emitted only
when the assignment loop hits a short result list. -/
def processBatchesGo (v2 v1 : List Nat → Option (List KeyVer)) :
    Nat → Nat → List Nat → List (Nat × KeyVer) × List Nat
  | 0, _, _ => ([], [])
  | _ + 1, _, [] => ([], [])
  | fuel + 1, i, c :: cs =>
    let batch := (c :: cs).take 32
    let here : List (Nat × KeyVer) × List Nat :=
      match get_key_versions_batch v2 v1 batch with
      | none => ([], [])
      | some rs =>
        ((assignBatch batch rs).1, if (assignBatch batch rs).2 then [i / 32 + 1] else [])
    let r := processBatchesGo v2 v1 fuel (i + 32) ((c :: cs).drop 32)
    (here.1 ++ r.1, here.2 ++ r.2)

/-- `TagReader.process_codes_in_batches` (the fuel equals the code count, so
it never runs out). -/
def process_codes_in_batches (v2 v1 : List Nat → Option (List KeyVer))
    (codes : List Nat) : List (Nat × KeyVer) × List Nat :=
  processBatchesGo v2 v1 codes.length 0 codes

/-- Fuel-indexed decomposition of a code list into consecutive chunks of at
most 32, exactly as the Python slicing `codes[i : i + 32]` produces them. -/
def chunks32Go : Nat → List Nat → List (List Nat)
  | 0, _ => []
  | _ + 1, [] => []
  | fuel + 1, c :: cs => (c :: cs).take 32 :: chunks32Go fuel ((c :: cs).drop 32)

/-- The chunk decomposition used by the batching loop. -/
def chunks32 (codes : List Nat) : List (List Nat) :=
  chunks32Go codes.length codes

/-- Processing of one chunk with printed batch number `bn`, structured from
the (amended) claim's words: attempt v2, fall back to v1 for the whole
chunk on any v2 failure, contribute nothing at all (and no warning) when
both fail, and warn naming the batch only when the result list is shorter
than the chunk. -/
def perChunk (v2 v1 : List Nat → Option (List KeyVer)) (bn : Nat)
    (batch : List Nat) : List (Nat × KeyVer) × List Nat :=
  match get_key_versions_batch v2 v1 batch with
  | none => ([], [])
  | some rs => ((assignBatch batch rs).1, if (assignBatch batch rs).2 then [bn] else [])

/-- Concatenation of per-chunk contributions with consecutive batch
numbers starting at `bn`. -/
def chunkMapJoin (v2 v1 : List Nat → Option (List KeyVer)) :
    Nat → List (List Nat) → List (Nat × KeyVer) × List Nat
  | _, [] => ([], [])
  | bn, ch :: rest =>
    ((perChunk v2 v1 bn ch).1 ++ (chunkMapJoin v2 v1 (bn + 1) rest).1,
     (perChunk v2 v1 bn ch).2 ++ (chunkMapJoin v2 v1 (bn + 1) rest).2)

/-! Section: Key table (src/felica_dumper/core/key_manager.py).  The CSV source is
modelled as a list of already-parsed rows (hex parsing of well-formed rows
abstracted away; the whole-batch parse-failure path returns an empty map and
is outside claims C7/C10, which concern successful loads); a Python dict is
an insertion-ordered association list updated by `dictInsert`. -/

/-- `KeyInfo` (src/felica_dumper/models/key_info.py). -/
structure KeyInfo where
  node_id : Nat
  version : Nat
  key_value : List Nat
  key_type : String
  deriving DecidableEq, Repr

/-- One parsed row of the key CSV source. -/
structure CsvRow where
  system_code : Nat
  node : Nat
  key : List Nat
  version : Nat
  deriving DecidableEq, Repr

/-- `KeyManager.determine_key_type`: node 0xFFFF is the system key, node
0x0000 and nodes below the 0x1000 threshold are area keys, the rest are
service keys. -/
def determine_key_type (node_id : Nat) : String :=
  if node_id = 0xFFFF then "system"
  else if node_id = 0x0000 then "area"
  else if node_id < 0x1000 then "area"
  else "service"

/-- The KeyInfo built from one CSV row. -/
def mkKeyInfo (row : CsvRow) : KeyInfo :=
  ⟨row.node, row.version, row.key, determine_key_type row.node⟩

/-- Python dict assignment `keys[node_id] = key_info` on an
insertion-ordered association list (keys are unique by construction):
replace the entry in place when the key is present, append otherwise. -/
def dictInsert : List (Nat × KeyInfo) → Nat → KeyInfo → List (Nat × KeyInfo)
  | [], k, v => [(k, v)]
  | p :: rest, k, v => if p.1 = k then (k, v) :: rest else p :: dictInsert rest k v

/-- The row loop of `KeyManager.load_keys_for_system`: rows whose system
code differs from the requested one are skipped, matching rows assign
`keys[node_id] = key_info` in row order. -/
def buildKeysGo (system_code : Nat) (acc : List (Nat × KeyInfo)) :
    List CsvRow → List (Nat × KeyInfo)
  | [] => acc
  | row :: rest =>
    if row.system_code = system_code then
      buildKeysGo system_code (dictInsert acc row.node (mkKeyInfo row)) rest
    else buildKeysGo system_code acc rest

/-- The `KeyManager` session state: the per-system-code cache. -/
structure KeyManagerState where
  keys_cache : List (Nat × List (Nat × KeyInfo))
  deriving DecidableEq, Repr

/-- `KeyManager.load_keys_for_system`, instrumented with the number of CSV
reads performed (0 or 1): a cached system code is answered from the cache
without reading; otherwise the source is read, filtered and the result
cached. -/
def load_keys_for_system (st : KeyManagerState) (rows : List CsvRow)
    (system_code : Nat) : List (Nat × KeyInfo) × KeyManagerState × Nat :=
  match st.keys_cache.lookup system_code with
  | some m => (m, st, 0)
  | none =>
    let m := buildKeysGo system_code [] rows
    (m, ⟨st.keys_cache ++ [(system_code, m)]⟩, 1)

/-- The last row of the source matching the requested system code and node
id, as claim C10 words it (later rows win). -/
def lastMatch (system_code n : Nat) : List CsvRow → Option CsvRow
  | [] => none
  | row :: rest =>
    match lastMatch system_code n rest with
    | some r => some r
    | none =>
      if row.system_code = system_code ∧ row.node = n then some row else none

/-! Section: Authentication orchestrator (src/felica_dumper/core/authentication.py).
The crypto primitive `KeyManager.generate_service_keys` and the transceiver
primitive `mutual_authentication` are oracles returning `Except String`;
an `Except.error` models a raised exception carrying its message.  The
oracles return byte strings directly, so `normalize_identifier` is the
identity on their results. -/

/-- `SYSTEM_KEY_NODE_ID` (src/felica_dumper/models/constants.py). -/
def SYSTEM_KEY_NODE_ID : Nat := 0xFFFF

/-- Uppercase hex digit, as produced by the Python format spec `X`. -/
def hexChar (n : Nat) : Char :=
  if n < 10 then Char.ofNat (48 + n) else Char.ofNat (55 + n)

/-- The Python format spec `04X` for 16-bit values. -/
def hex4 (n : Nat) : String :=
  ⟨[hexChar (n / 4096 % 16), hexChar (n / 256 % 16), hexChar (n / 16 % 16),
    hexChar (n % 16)]⟩

/-- `UsedKeys` (src/felica_dumper/models/key_info.py). -/
structure UsedKeys where
  system_key : Option KeyInfo := none
  area_keys : List KeyInfo := []
  service_keys : List KeyInfo := []
  authentication_required : Bool := false
  authentication_status : String := "none"
  issue_id : Option (List Nat) := none
  issue_parameter : Option (List Nat) := none
  deriving DecidableEq, Repr

/-- Stable insertion of an area into a list sorted by start code
(`containing_areas.sort(key=lambda x: x[0])`). -/
def orderedInsertByStart (a : Nat × Nat) : List (Nat × Nat) → List (Nat × Nat)
  | [] => [a]
  | b :: l => if a.1 ≤ b.1 then a :: b :: l else b :: orderedInsertByStart a l

/-- Stable sort of the containing areas by their start code. -/
def sortByStart : List (Nat × Nat) → List (Nat × Nat)
  | [] => []
  | a :: l => orderedInsertByStart a (sortByStart l)

/-- The `for area_start, area_end in containing_areas` loop: collect the
area key for each area start found in the key table, and a warning message
for each area start that has none. -/
def areaKeyScan (keys : List (Nat × KeyInfo)) : List (Nat × Nat) → List KeyInfo × List String
  | [] => ([], [])
  | a :: rest =>
    match keys.lookup a.1 with
    | some k => (k :: (areaKeyScan keys rest).1, (areaKeyScan keys rest).2)
    | none =>
      ((areaKeyScan keys rest).1,
       ("  ⚠ No key for area 0x" ++ hex4 a.1) :: (areaKeyScan keys rest).2)

/-- `AuthenticationHandler.authenticate_service`.  Returns the 4-tuple
`(success, issue_id, issue_parameter, error_messages)` the source returns,
paired with the updated `used_keys` accumulator (modelled by explicit state
passing; the source mutates the caller-supplied object). -/
def authenticate_service
    (generate_service_keys : List Nat → List (List Nat) → List (List Nat) →
      Except String (List Nat × List Nat))
    (mutual_auth : List Nat → List Nat → List Nat → List Nat →
      Except String (List Nat × List Nat))
    (service_code : Nat) (areas : List (Nat × Nat)) (keys : List (Nat × KeyInfo))
    (used_keys : UsedKeys) :
    (Bool × Option (List Nat) × Option (List Nat) × List String) × UsedKeys :=
  let containing_areas :=
    areas.filter fun a => decide (a.1 ≤ service_code ∧ service_code ≤ a.2)
  if containing_areas.isEmpty then
    ((false, none, none, ["  ✗ Service not found in any area"]), used_keys)
  else
    let containing_areas := sortByStart containing_areas
    match keys.lookup SYSTEM_KEY_NODE_ID with
    | none =>
      ((false, none, none,
        ["  ✗ System key (0x" ++ hex4 SYSTEM_KEY_NODE_ID ++ ") not found"]), used_keys)
    | some system_key_info =>
      match keys.lookup service_code with
      | none =>
        ((false, none, none,
          ["  ✗ Service key (0x" ++ hex4 service_code ++ ") not found"]), used_keys)
      | some service_key_info =>
        let uk : UsedKeys := { used_keys with
          authentication_required := true,
          system_key := some system_key_info,
          service_keys := used_keys.service_keys ++ [service_key_info] }
        let scan := areaKeyScan keys containing_areas
        let uk : UsedKeys := { uk with area_keys := uk.area_keys ++ scan.1 }
        let error_messages := scan.2
        match generate_service_keys system_key_info.key_value
            (scan.1.map fun ki => ki.key_value) [service_key_info.key_value] with
        | .error e =>
          ((false, none, none, error_messages ++ ["  ✗ Authentication failed: " ++ e]),
           uk)
        | .ok gkuk =>
          match mutual_auth (containing_areas.map fun a => a.1) [service_code]
              gkuk.1 gkuk.2 with
          | .error e =>
            ((false, none, none,
              error_messages ++ ["  ✗ Authentication failed: " ++ e]), uk)
          | .ok idpm => ((true, some idpm.1, some idpm.2, error_messages), uk)

/-! Section: Area/service hierarchy builder (src/felica_dumper/ui/text_output.py,
build_area_hierarchy and assign_service_groups_to_areas).  Python area
spans `a[1] - a[0]` are modelled over Int so that arbitrary (even
malformed) ranges behave as in Python. -/

/-- The span `a[1] - a[0]` of an area, over Int as in Python. -/
def spanI (a : Nat × Nat) : Int :=
  (a.2 : Int) - (a.1 : Int)

/-- The sort key `(a[0], a[1] - a[0], a[1])` of `sorted_areas`, as a Bool
comparison. -/
def k1leb (a b : Nat × Nat) : Bool :=
  decide (a.1 < b.1 ∨ (a.1 = b.1 ∧
    (spanI a < spanI b ∨ (spanI a = spanI b ∧ a.2 ≤ b.2))))

/-- The `(start, span, end)` lexicographic order as a relation, used to run
the library insertion sort (Python `sorted` is stable, but two areas with
equal key are the identical pair, so tie order is irrelevant). -/
def R1 (a b : Nat × Nat) : Prop :=
  k1leb a b = true

instance R1.decidableRel : DecidableRel R1 :=
  fun a b => instDecidableEqBool (k1leb a b) true

instance R1.isTotal : IsTotal (Nat × Nat) R1 :=
  ⟨by intro a b; simp only [R1, k1leb, spanI, decide_eq_true_eq]; omega⟩

instance R1.isTrans : IsTrans (Nat × Nat) R1 :=
  ⟨by intro a b c; simp only [R1, k1leb, spanI, decide_eq_true_eq]; omega⟩

/-- The tie-broken "most specific" order of the claim: smaller span first,
then smaller start, then smaller end. -/
def k2le (a b : Nat × Nat) : Prop :=
  spanI a < spanI b ∨ (spanI a = spanI b ∧
    (a.1 < b.1 ∨ (a.1 = b.1 ∧ a.2 ≤ b.2)))

/-- The strict comparison `key(candidate) < key(best)` used by Python `min`
with key `(span, start, end)`. -/
def k2ltb (a b : Nat × Nat) : Bool :=
  decide (spanI a < spanI b ∨ (spanI a = spanI b ∧
    (a.1 < b.1 ∨ (a.1 = b.1 ∧ a.2 < b.2))))

/-- The candidate parents of `current`: every area other than `current`
whose range contains it (`candidate[0] <= current[0] and
current[1] <= candidate[1]`), in list order. -/
def containersOf (areas : List (Nat × Nat)) (current : Nat × Nat) : List (Nat × Nat) :=
  areas.filter fun c => c != current && decide (c.1 ≤ current.1 ∧ current.2 ≤ c.2)

/-- The `best_parent` scan: running through the candidates, replace the
best exactly when the candidate's span is strictly smaller. -/
def scanBestFrom (b : Nat × Nat) : List (Nat × Nat) → Nat × Nat
  | [] => b
  | c :: rest => scanBestFrom (if spanI c < spanI b then c else b) rest

/-- The parent `build_area_hierarchy` assigns to `current`: scan the
candidates among `sorted_areas` (sorted by `(start, span, end)`) and keep
the first strictly-smaller-span one; `none` when no area contains
`current`. -/
def parentOf (areas : List (Nat × Nat)) (current : Nat × Nat) : Option (Nat × Nat) :=
  match containersOf (List.insertionSort R1 areas) current with
  | [] => none
  | c :: rest => some (scanBestFrom c rest)

/-- Python `min` of a nonempty list of ints (`primary = min(group)`);
defaults to 0 on the empty list, which the source never reaches. -/
def pyMinNat : List Nat → Nat
  | [] => 0
  | x :: xs => xs.foldl Nat.min x

/-- Python `min(candidates, key=lambda a: (a[1] - a[0], a[0], a[1]))`:
fold keeping the first element of minimal key. -/
def minBy2From (b : Nat × Nat) : List (Nat × Nat) → Nat × Nat
  | [] => b
  | c :: rest => minBy2From (if k2ltb c b then c else b) rest

/-- The candidate areas for a service group: those whose range contains the
group's minimum member code. -/
def candidatesOf (areas : List (Nat × Nat)) (primary : Nat) : List (Nat × Nat) :=
  areas.filter fun ar => decide (ar.1 ≤ primary ∧ primary ≤ ar.2)

/-- The area a (nonempty) service group is attached to, when any candidate
contains its minimum member code. -/
def assignTarget (areas : List (Nat × Nat)) (g : List Nat) : Option (Nat × Nat) :=
  match candidatesOf areas (pyMinNat g) with
  | [] => none
  | c :: rest => some (minBy2From c rest)

/-- The group loop of `assign_service_groups_to_areas`: empty groups are
skipped, groups with no candidate go to `unassigned`, the rest are appended
to their target area's bucket (modelled as the in-order list of
(group, target) assignments). -/
def assignGo (areas : List (Nat × Nat)) :
    List (List Nat) → List (List Nat × (Nat × Nat)) × List (List Nat)
  | [] => ([], [])
  | g :: rest =>
    if g.isEmpty then assignGo areas rest
    else
      match assignTarget areas g with
      | none => ((assignGo areas rest).1, g :: (assignGo areas rest).2)
      | some t => ((g, t) :: (assignGo areas rest).1, (assignGo areas rest).2)

/-- `assign_service_groups_to_areas`: with no areas at all, every group is
returned unassigned (including empty ones, as in the source's early
return). -/
def assign_service_groups_to_areas (areas : List (Nat × Nat))
    (groups : List (List Nat)) :
    List (List Nat × (Nat × Nat)) × List (List Nat) :=
  if areas.isEmpty then ([], groups) else assignGo areas groups

end FelicaDumper

namespace FelicaDumper

lemma groupGo_flatten (l : List Nat) :
    ∀ (sgs : List (List Nat)) (cg : List Nat), (groupGo sgs cg l).flatten = sgs.flatten ++ cg ++ l := by
  induction l with
  | nil =>
    intro sgs cg
    cases cg <;> simp [groupGo]
  | cons s rest ih =>
    intro sgs cg
    cases cg with
    | nil => simp [groupGo, ih]
    | cons c cs =>
      simp only [groupGo]
      split
      · split
        · simp [ih]
        · split
          · simp [ih]
          · simp [ih]
      · simp [ih]

lemma groupGo_eq_ruleGroupGo (l : List Nat) :
    ∀ (sgs : List (List Nat)) (cg : List Nat), groupGo sgs cg l = ruleGroupGo sgs cg l := by
  induction l with
  | nil => intro sgs cg; cases cg <;> rfl
  | cons s rest ih =>
    intro sgs cg
    cases cg with
    | nil => simp [groupGo, ruleGroupGo, ih]
    | cons c cs =>
      simp only [groupGo, ruleGroupGo, overlapExtendCond]
      by_cases h4 : s >>> 4 = (c :: cs).getLast (by simp) >>> 4
      · by_cases hp : (s >>> 4) &&& 1 = 1
        · simp [← h4, hp, ih]
        · by_cases h2 : s >>> 2 = (c :: cs).getLast (by simp) >>> 2
          · simp [← h4, hp, h2, ih]
          · simp [← h4, hp, h2, ih]
      · simp [h4, ih]

/-- C2: flattening the output of the service grouper yields exactly the
input list (the partition is lossless and order-preserving); the empty list
yields no groups and a one-element list yields one singleton group. -/
theorem group_overlapped_services_flatten :
    (∀ l : List Nat, (group_overlapped_services l).flatten = l) ∧
    group_overlapped_services [] = [] ∧
    (∀ x : Nat, group_overlapped_services [x] = [[x]]) := by
  refine ⟨fun l => ?_, rfl, fun x => rfl⟩
  simpa using groupGo_flatten l [] []

/-- C3 counterexample: the claim's extension condition (testing bit 4 of the
shifted value `code >> 4`) holds of last code 0x0100 and next code 0x0104,
yet the source starts a new group there, so the claimed condition does not
characterise the implemented grouping. -/
theorem claimed_extend_cond_falsified :
    claimedExtendCond 256 260 = true ∧
    group_overlapped_services [256, 260] = [[256], [260]] := by
  constructor <;> rfl

lemma optGo_eq (gs : List (List Nat)) :
    ∀ (na au : List (List Nat)),
      optGo na au gs =
        (na ++ gs.filter hasNoAuthMember, au ++ gs.filter fun g => !hasNoAuthMember g) := by
  induction gs with
  | nil => intro na au; simp [optGo]
  | cons g rest ih =>
    intro na au
    by_cases h : hasNoAuthMember g <;> simp [optGo, h, ih]

/-- C5: the processing-order optimizer is the stable partition of the input
group list by the predicate "some member code has its LSB set": the first
bucket keeps exactly those groups, the second the rest, both in input
order, so every input group lands in exactly one bucket. -/
theorem optimize_is_stable_partition :
    ∀ gs : List (List Nat),
      optimize_service_processing_order gs =
        (gs.filter hasNoAuthMember, gs.filter fun g => !hasNoAuthMember g) := by
  intro gs
  simpa [optimize_service_processing_order] using optGo_eq gs [] []

lemma find?_eq_head_filter (p : Nat → Bool) :
    ∀ l : List Nat, l.find? p = (l.filter p).head? := by
  intro l
  induction l with
  | nil => rfl
  | cons a t ih =>
    by_cases h : p a
    · rw [List.find?_cons_of_pos _ h, List.filter_cons_of_pos h, List.head?_cons]
    · rw [List.find?_cons_of_neg _ h, List.filter_cons_of_neg h, ih]

lemma getLast?_filter_eq_find_reverse (p : Nat → Bool) (l : List Nat) :
    (l.filter p).getLast? = l.reverse.find? p := by
  rw [find?_eq_head_filter, List.filter_reverse, List.head?_reverse]

/-- C6: for a group with more than one member, the member attempted is the
last member whose LSB is 1 (the first hit of a right-to-left search) and it
is read without authentication; if no member has LSB 1, the first member is
attempted with authentication; a singleton group is read with or without
authentication according to `requires_authentication` on its single code. -/
theorem selected_read_spec :
    ∀ (a b : Nat) (rest : List Nat) (c : Nat),
      (∀ sc, (a :: b :: rest).reverse.find? (fun x => x &&& 1 == 1) = some sc →
          selected_read (a :: b :: rest) = some (sc, ReadMode.noAuth)) ∧
      ((a :: b :: rest).reverse.find? (fun x => x &&& 1 == 1) = none →
          selected_read (a :: b :: rest) = some (a, ReadMode.withAuth)) ∧
      selected_read [c] =
        some (c, if requires_authentication c then ReadMode.withAuth else ReadMode.noAuth) := by
  intro a b rest c
  refine ⟨fun sc h => ?_, fun h => ?_, rfl⟩
  · rw [← getLast?_filter_eq_find_reverse] at h
    simp only [selected_read]
    rw [h]
  · rw [← getLast?_filter_eq_find_reverse] at h
    simp only [selected_read]
    rw [h]

/-- C6 witness: in the group [4, 5, 2, 7, 6] the members with LSB 1 are 5
and 7, and the selection picks the last of them, 7, without
authentication. -/
theorem selected_read_spec_witness :
    selected_read [4, 5, 2, 7, 6] = some (7, ReadMode.noAuth) :=
  (selected_read_spec 4 5 [2, 7, 6] 0).1 7 (by rfl)

lemma discoverGo_count_le (f : Nat → Option (List Nat)) :
    ∀ (fuel i : Nat), (discoverGo f i fuel).2.2 ≤ fuel := by
  intro fuel
  induction fuel with
  | zero => intro i; simp [discoverGo]
  | succ n ih =>
    intro i
    rcases hd : discoverGo f (i + 1) n with ⟨ar, se, q⟩
    have hq : q ≤ n := by simpa [hd] using ih (i + 1)
    cases hf : f i with
    | none => simp [discoverGo, hf]
    | some ans =>
      match ans with
      | [] => simp [discoverGo, hf, hd]; omega
      | [s] => simp [discoverGo, hf, hd]; omega
      | [a, b] => simp [discoverGo, hf, hd]; omega
      | a :: b :: c :: t => simp [discoverGo, hf, hd]; omega

lemma discoverGo_filterMap (f : Nat → Option (List Nat)) :
    ∀ (fuel i : Nat),
      (discoverGo f i fuel).1 = (answeredFrom f i fuel).filterMap pairOf ∧
      (discoverGo f i fuel).2.1 = (answeredFrom f i fuel).filterMap singleOf := by
  intro fuel
  induction fuel with
  | zero => intro i; simp [discoverGo, answeredFrom]
  | succ n ih =>
    intro i
    rcases hd : discoverGo f (i + 1) n with ⟨ar, se, q⟩
    obtain ⟨h1, h2⟩ := ih (i + 1)
    rw [hd] at h1 h2
    dsimp only at h1 h2
    cases hf : f i with
    | none => simp [discoverGo, answeredFrom, hf]
    | some ans =>
      match ans with
      | [] => simp [discoverGo, answeredFrom, hf, hd, pairOf, singleOf, h1, h2]
      | [s] => simp [discoverGo, answeredFrom, hf, hd, pairOf, singleOf, h1, h2]
      | [a, b] => simp [discoverGo, answeredFrom, hf, hd, pairOf, singleOf, h1, h2]
      | a :: b :: c :: t =>
        simp [discoverGo, answeredFrom, hf, hd, pairOf, singleOf, h1, h2]

/-- C8: for every behaviour of the per-index directory-lookup primitive the
walker performs at most 65536 queries (the answer sequence `answeredFrom`
ends at the first query that returns nothing), and the resulting areas and
services lists are exactly the two-code and single-code answers, each in
the order the indices 0, 1, 2, ... were queried. -/
theorem discover_walker_spec :
    ∀ f : Nat → Option (List Nat),
      (discover_areas_and_services f).2.2 ≤ 65536 ∧
      (discover_areas_and_services f).1 = (answeredFrom f 0 65536).filterMap pairOf ∧
      (discover_areas_and_services f).2.1 = (answeredFrom f 0 65536).filterMap singleOf := by
  intro f
  exact ⟨discoverGo_count_le f 65536 0, (discoverGo_filterMap f 65536 0).1,
    (discoverGo_filterMap f 65536 0).2⟩

lemma chunks32Go_flatten : ∀ (n : Nat) (codes : List Nat), codes.length ≤ n →
    (chunks32Go n codes).flatten = codes := by
  intro n
  induction n with
  | zero =>
    intro codes h
    have : codes = [] := List.eq_nil_of_length_eq_zero (Nat.le_zero.mp h)
    simp [this, chunks32Go]
  | succ n ih =>
    intro codes h
    cases codes with
    | nil => simp [chunks32Go]
    | cons c cs =>
      have hrest : ((c :: cs).drop 32).length ≤ n := by
        simp only [List.length_drop, List.length_cons] at *
        omega
      simp only [chunks32Go, List.flatten_cons]
      rw [ih _ hrest]
      exact List.take_append_drop 32 (c :: cs)

lemma chunks32Go_sizes : ∀ (n : Nat) (codes : List Nat),
    (chunks32Go n codes).all (fun ch => decide (ch.length ≤ 32) && !ch.isEmpty) = true := by
  intro n
  induction n with
  | zero => intro codes; simp [chunks32Go]
  | succ n ih =>
    intro codes
    cases codes with
    | nil => simp [chunks32Go]
    | cons c cs =>
      simp only [chunks32Go, List.all_cons, Bool.and_eq_true, ih, and_true]
      constructor
      · simp
      · simp [List.take]

lemma processBatchesGo_eq_chunkMapJoin (v2 v1 : List Nat → Option (List KeyVer)) :
    ∀ (n k : Nat) (codes : List Nat), codes.length ≤ n →
      processBatchesGo v2 v1 n (32 * k) codes =
        chunkMapJoin v2 v1 (k + 1) (chunks32Go n codes) := by
  intro n
  induction n with
  | zero =>
    intro k codes h
    have : codes = [] := List.eq_nil_of_length_eq_zero (Nat.le_zero.mp h)
    simp [this, processBatchesGo, chunks32Go, chunkMapJoin]
  | succ n ih =>
    intro k codes h
    cases codes with
    | nil => simp [processBatchesGo, chunks32Go, chunkMapJoin]
    | cons c cs =>
      have hrest : ((c :: cs).drop 32).length ≤ n := by
        simp only [List.length_drop, List.length_cons] at *
        omega
      have hrec := ih (k + 1) ((c :: cs).drop 32) hrest
      have hk32 : 32 * k + 32 = 32 * (k + 1) := by ring
      have hbn : 32 * k / 32 + 1 = k + 1 := by
        rw [Nat.mul_div_cancel_left k (by norm_num : (0 : Nat) < 32)]
      simp only [processBatchesGo, chunks32Go, chunkMapJoin, perChunk, hk32, hrec, hbn]

/-- C4 (amended): the key-version batching splits the code list into
consecutive chunks of at most 32 codes whose concatenation is the input;
processing is the concatenation of independent per-chunk contributions with
batch numbers 1, 2, ...; each chunk first attempts the v2 query and falls
back to the v1 query for the whole chunk on any v2 failure; and when both
queries fail the chunk contributes no result entries and, contrary to the
claim's wording, no warning either (the only warning, naming the batch
number, arises from a result list shorter than its chunk). -/
theorem process_codes_in_batches_chunked :
    ∀ (v2 v1 : List Nat → Option (List KeyVer)) (codes : List Nat),
      (chunks32 codes).flatten = codes ∧
      (chunks32 codes).all (fun ch => decide (ch.length ≤ 32) && !ch.isEmpty) = true ∧
      process_codes_in_batches v2 v1 codes = chunkMapJoin v2 v1 1 (chunks32 codes) ∧
      (∀ (bn : Nat) (batch : List Nat), get_key_versions_batch v2 v1 batch = none →
          perChunk v2 v1 bn batch = ([], [])) := by
  intro v2 v1 codes
  refine ⟨chunks32Go_flatten codes.length codes le_rfl, chunks32Go_sizes codes.length codes,
    ?_, fun bn batch h => by simp [perChunk, h]⟩
  simpa [process_codes_in_batches, chunks32] using
    processBatchesGo_eq_chunkMapJoin v2 v1 codes.length 0 codes le_rfl

/-- C4 witness: with both query forms failing on every batch, the single
chunk of [0, 1] contributes no entries and no warning. -/
theorem process_codes_in_batches_chunked_witness :
    perChunk (fun _ => none) (fun _ => none) 1 [0, 1] = ([], []) :=
  (process_codes_in_batches_chunked (fun _ => none) (fun _ => none) [0, 1]).2.2.2
    1 [0, 1] rfl

/-- C4 counterexample: when both the v2 and the v1 query fail for a chunk,
the code omits the chunk's entries from the result map (first component
empty) but, contrary to the claim, emits no warning at all (second
component empty): the double failure is swallowed inside
`get_key_versions_batch`, which returns `none` without reaching the
warning-printing handler. -/
theorem batch_double_failure_is_silent :
    process_codes_in_batches (fun _ => none) (fun _ => none) [0] = ([], []) := rfl

lemma lookup_dictInsert (k : Nat) (v : KeyInfo) :
    ∀ (m : List (Nat × KeyInfo)) (n : Nat),
      (dictInsert m k v).lookup n = if n = k then some v else m.lookup n := by
  intro m
  induction m with
  | nil =>
    intro n
    by_cases hn : n = k
    · simp [dictInsert, List.lookup, hn]
    · have : (n == k) = false := by simpa using hn
      simp [dictInsert, List.lookup, this, hn]
  | cons p rest ih =>
    intro n
    by_cases hp : p.1 = k
    · by_cases hn : n = k
      · simp [dictInsert, hp, List.lookup, hn]
      · have h1 : (n == k) = false := by simpa using hn
        have h2 : (n == p.1) = false := by simpa [hp] using hn
        simp [dictInsert, hp, List.lookup, h1, h2, hn]
    · by_cases hn : n = p.1
      · have hnk : n ≠ k := fun hc => hp (hn ▸ hc)
        simp [dictInsert, hp, List.lookup, hn, hnk]
      · have h2 : (n == p.1) = false := by simpa using hn
        simp [dictInsert, hp, List.lookup, h2, ih]

lemma buildKeysGo_lookup (sc n : Nat) :
    ∀ (rows : List CsvRow) (acc : List (Nat × KeyInfo)),
      (buildKeysGo sc acc rows).lookup n =
        match lastMatch sc n rows with
        | some r => some (mkKeyInfo r)
        | none => acc.lookup n := by
  intro rows
  induction rows with
  | nil => intro acc; simp [buildKeysGo, lastMatch]
  | cons row rest ih =>
    intro acc
    by_cases hsc : row.system_code = sc
    · simp only [buildKeysGo, lastMatch, hsc, if_true]
      rw [ih]
      cases hl : lastMatch sc n rest with
      | some r => rfl
      | none =>
        rw [lookup_dictInsert]
        by_cases hn : n = row.node
        · simp [hn, hsc]
        · have hn2 : ¬row.node = n := fun hc => hn (hc ▸ rfl)
          simp [hn, hn2]
    · simp only [buildKeysGo, lastMatch, hsc, if_false]
      rw [ih]
      cases hl : lastMatch sc n rest with
      | some r => rfl
      | none =>
        have : ¬(row.system_code = sc ∧ row.node = n) := fun hc => hsc hc.1
        simp [this]

/-- C10: looking up a node id in the map built for a system code yields the
record built from the last CSV row carrying that system code and node id
(`lastMatch` prefers later rows), so duplicate rows are resolved
deterministically in favour of the final one. -/
theorem build_keys_last_row_wins :
    ∀ (rows : List CsvRow) (system_code n : Nat),
      (buildKeysGo system_code [] rows).lookup n =
        (lastMatch system_code n rows).map mkKeyInfo := by
  intro rows system_code n
  rw [buildKeysGo_lookup]
  cases lastMatch system_code n rows <;> rfl

/-- C7: starting from a fresh key manager, loading a system code reads the
source once; loading the same code again returns the very map stored by the
first call, with the state unchanged and no further read; loading a
different code performs a fresh independent read and filter of the source
(result `buildKeysGo sc2 [] rows`, read count 1). -/
theorem load_keys_cache_roundtrip :
    ∀ (rows : List CsvRow) (sc sc2 : Nat),
      load_keys_for_system ((load_keys_for_system ⟨[]⟩ rows sc).2.1) rows sc =
        ((load_keys_for_system ⟨[]⟩ rows sc).1,
         (load_keys_for_system ⟨[]⟩ rows sc).2.1, 0) ∧
      (sc2 ≠ sc →
        load_keys_for_system ((load_keys_for_system ⟨[]⟩ rows sc).2.1) rows sc2 =
          (buildKeysGo sc2 [] rows,
           ⟨(load_keys_for_system ⟨[]⟩ rows sc).2.1.keys_cache ++
              [(sc2, buildKeysGo sc2 [] rows)]⟩, 1)) := by
  intro rows sc sc2
  constructor
  · simp [load_keys_for_system, List.lookup]
  · intro h
    have : (sc2 == sc) = false := by simpa using h
    simp [load_keys_for_system, List.lookup, this]

/-- C7 witness: with a one-row source for system 3, loading system 3 and
then system 4 re-reads the source for system 4, yielding its own (empty)
filtered map. -/
theorem load_keys_cache_roundtrip_witness :
    load_keys_for_system ((load_keys_for_system ⟨[]⟩ [⟨3, 65535, [1], 1⟩] 3).2.1)
        [⟨3, 65535, [1], 1⟩] 4 =
      (buildKeysGo 4 [] [⟨3, 65535, [1], 1⟩],
       ⟨(load_keys_for_system ⟨[]⟩ [⟨3, 65535, [1], 1⟩] 3).2.1.keys_cache ++
          [(4, buildKeysGo 4 [] [⟨3, 65535, [1], 1⟩])]⟩, 1) :=
  (load_keys_cache_roundtrip [⟨3, 65535, [1], 1⟩] 3 4).2 (by decide)

/-- C1: `authenticate_service` returns a 4-tuple
`(success, issue_id, issue_parameter, error_messages)`, not the
`(success, messages)` pair its only caller unpacks: on a successful run the
message list sits in the fourth component (the second and third carry the
issue identifiers) and the key records consumed — system key, area keys,
service key — are recorded in the caller-supplied UsedKeys accumulator;
on the no-containing-area failure the messages again sit in the fourth
component while the second is `none`. -/
theorem authenticate_service_returns_quadruple :
    authenticate_service (fun _ _ _ => .ok ([1], [2])) (fun _ _ _ _ => .ok ([3], [4]))
        8 [(0, 255)]
        [(65535, ⟨65535, 1, [9], "system"⟩), (0, ⟨0, 1, [6], "area"⟩),
         (8, ⟨8, 1, [7], "service"⟩)] {} =
      ((true, some [3], some [4], []),
       { system_key := some ⟨65535, 1, [9], "system"⟩,
         area_keys := [⟨0, 1, [6], "area"⟩],
         service_keys := [⟨8, 1, [7], "service"⟩],
         authentication_required := true }) ∧
    authenticate_service (fun _ _ _ => .ok ([1], [2])) (fun _ _ _ _ => .ok ([3], [4]))
        8 [] [] {} =
      ((false, none, none, ["  ✗ Service not found in any area"]), {}) := by
  constructor <;> rfl

lemma k2le_refl (a : Nat × Nat) : k2le a a := by
  unfold k2le
  omega

lemma k2le_trans {a b c : Nat × Nat} (h1 : k2le a b) (h2 : k2le b c) : k2le a c := by
  unfold k2le spanI at *
  omega

lemma k2le_of_span_lt {a b : Nat × Nat} (h : spanI a < spanI b) : k2le a b := by
  unfold k2le
  exact Or.inl h

lemma k2le_of_R1_of_span_le {a b : Nat × Nat} (hr : R1 a b)
    (hs : ¬spanI b < spanI a) : k2le a b := by
  simp only [R1, k1leb, decide_eq_true_eq] at hr
  unfold k2le spanI at *
  omega

lemma scanBestFrom_spec :
    ∀ (l : List (Nat × Nat)) (b : Nat × Nat), List.Pairwise R1 (b :: l) →
      scanBestFrom b l ∈ b :: l ∧ ∀ x ∈ b :: l, k2le (scanBestFrom b l) x := by
  intro l
  induction l with
  | nil =>
    intro b _
    refine ⟨List.mem_singleton_self b, ?_⟩
    intro x hx
    rw [List.mem_singleton] at hx
    rw [hx]
    exact k2le_refl b
  | cons c rest ih =>
    intro b hpw
    have hbc : R1 b c := (List.pairwise_cons.mp hpw).1 c (List.mem_cons_self c rest)
    have hl : List.Pairwise R1 (c :: rest) := (List.pairwise_cons.mp hpw).2
    simp only [scanBestFrom]
    by_cases hspan : spanI c < spanI b
    · rw [if_pos hspan]
      obtain ⟨hmem, hle⟩ := ih c hl
      refine ⟨List.mem_cons_of_mem b hmem, ?_⟩
      intro x hx
      rcases List.mem_cons.mp hx with hxb | hxc
      · rw [hxb]
        exact k2le_trans (hle c (List.mem_cons_self c rest)) (k2le_of_span_lt hspan)
      · exact hle x hxc
    · rw [if_neg hspan]
      have hsub : (b :: rest).Sublist (b :: c :: rest) :=
        List.Sublist.cons₂ b (List.sublist_cons_self c rest)
      have hpw2 : List.Pairwise R1 (b :: rest) := hpw.sublist hsub
      obtain ⟨hmem, hle⟩ := ih b hpw2
      constructor
      · rcases List.mem_cons.mp hmem with h | h
        · rw [h]
          exact List.mem_cons_self b (c :: rest)
        · exact List.mem_cons_of_mem b (List.mem_cons_of_mem c h)
      · intro x hx
        have hbcle : k2le b c := k2le_of_R1_of_span_le hbc hspan
        rcases List.mem_cons.mp hx with hxb | hxrest
        · rw [hxb]
          exact hle b (List.mem_cons_self b rest)
        · rcases List.mem_cons.mp hxrest with hxc | hxr
          · rw [hxc]
            exact k2le_trans (hle b (List.mem_cons_self b rest)) hbcle
          · exact hle x (List.mem_cons_of_mem b hxr)

lemma k2le_of_k2ltb {a b : Nat × Nat} (h : k2ltb a b = true) : k2le a b := by
  simp only [k2ltb, decide_eq_true_eq] at h
  unfold k2le spanI at *
  omega

lemma k2le_of_not_k2ltb {a b : Nat × Nat} (h : ¬k2ltb a b = true) : k2le b a := by
  simp only [k2ltb, decide_eq_true_eq] at h
  unfold k2le spanI at *
  omega

lemma minBy2From_spec :
    ∀ (l : List (Nat × Nat)) (b : Nat × Nat),
      minBy2From b l ∈ b :: l ∧ ∀ x ∈ b :: l, k2le (minBy2From b l) x := by
  intro l
  induction l with
  | nil =>
    intro b
    refine ⟨List.mem_singleton_self b, ?_⟩
    intro x hx
    rw [List.mem_singleton] at hx
    rw [hx]
    exact k2le_refl b
  | cons c rest ih =>
    intro b
    simp only [minBy2From]
    by_cases hlt : k2ltb c b = true
    · rw [if_pos hlt]
      obtain ⟨hmem, hle⟩ := ih c
      refine ⟨List.mem_cons_of_mem b hmem, ?_⟩
      intro x hx
      rcases List.mem_cons.mp hx with hxb | hxc
      · rw [hxb]
        exact k2le_trans (hle c (List.mem_cons_self c rest)) (k2le_of_k2ltb hlt)
      · exact hle x hxc
    · rw [if_neg hlt]
      obtain ⟨hmem, hle⟩ := ih b
      constructor
      · rcases List.mem_cons.mp hmem with h | h
        · rw [h]
          exact List.mem_cons_self b (c :: rest)
        · exact List.mem_cons_of_mem b (List.mem_cons_of_mem c h)
      · intro x hx
        rcases List.mem_cons.mp hx with hxb | hxrest
        · rw [hxb]
          exact hle b (List.mem_cons_self b rest)
        · rcases List.mem_cons.mp hxrest with hxc | hxr
          · rw [hxc]
            exact k2le_trans (hle b (List.mem_cons_self b rest))
              (k2le_of_not_k2ltb hlt)
          · exact hle x (List.mem_cons_of_mem b hxr)

lemma assignGo_eq (areas : List (Nat × Nat)) :
    ∀ groups : List (List Nat),
      assignGo areas groups =
        (groups.filterMap fun g =>
            if g.isEmpty then none else (assignTarget areas g).map fun t => (g, t),
         groups.filter fun g => !g.isEmpty && (assignTarget areas g).isNone) := by
  intro groups
  induction groups with
  | nil => rfl
  | cons g rest ih =>
    by_cases hg : g.isEmpty
    · have hg' : g = [] := List.isEmpty_iff.mp hg
      subst hg'
      simp [assignGo, ih, List.filterMap_cons]
    · have hg' : ¬g = [] := fun hc => hg (by simp [hc])
      cases ht : assignTarget areas g with
      | none => simp [assignGo, hg, hg', ht, ih, List.filterMap_cons]
      | some t => simp [assignGo, hg, hg', ht, ih, List.filterMap_cons]

/-- C9: in the hierarchy builder, the parent assigned to an area is
exactly the least element, in the (span, start, end) order `k2le`
(smallest span, ties by start then end ascending), of the distinct areas
whose range contains it — `none`, making it a root, exactly when there is
no such container; and each nonempty service group is attached to the
least candidate, in the same order, among the areas containing the group's
minimum member code, groups with no candidate landing in the unassigned
bucket. -/
theorem build_hierarchy_spec (areas : List (Nat × Nat)) (groups : List (List Nat)) :
    (∀ current : Nat × Nat,
      (parentOf areas current = none ↔ containersOf areas current = []) ∧
      (∀ m, parentOf areas current = some m →
        m ∈ containersOf areas current ∧
          ∀ x ∈ containersOf areas current, k2le m x)) ∧
    (∀ (g : List Nat) (t : Nat × Nat), assignTarget areas g = some t →
      t ∈ candidatesOf areas (pyMinNat g) ∧
        ∀ x ∈ candidatesOf areas (pyMinNat g), k2le t x) ∧
    (∀ g : List Nat,
      assignTarget areas g = none ↔ candidatesOf areas (pyMinNat g) = []) ∧
    (areas ≠ [] →
      assign_service_groups_to_areas areas groups =
        (groups.filterMap fun g =>
            if g.isEmpty then none else (assignTarget areas g).map fun t => (g, t),
         groups.filter fun g => !g.isEmpty && (assignTarget areas g).isNone)) := by
  refine ⟨fun current => ?_, fun g t ht => ?_, fun g => ?_, fun hne => ?_⟩
  · have hperm : List.Perm (containersOf (List.insertionSort R1 areas) current)
        (containersOf areas current) :=
      (List.perm_insertionSort R1 areas).filter _
    cases h : containersOf (List.insertionSort R1 areas) current with
    | nil =>
      rw [h] at hperm
      have hnil : containersOf areas current = [] := hperm.symm.eq_nil
      refine ⟨⟨fun _ => hnil, fun _ => by simp [parentOf, h]⟩, fun m hm => ?_⟩
      simp [parentOf, h] at hm
    | cons c rest =>
      have hpw : List.Pairwise R1 (c :: rest) := by
        have hsorted : List.Pairwise R1 (List.insertionSort R1 areas) :=
          List.sorted_insertionSort R1 areas
        have hs : List.Pairwise R1
            (containersOf (List.insertionSort R1 areas) current) := by
          unfold containersOf
          exact hsorted.filter _
        rw [h] at hs
        exact hs
      obtain ⟨hmem, hle⟩ := scanBestFrom_spec rest c hpw
      rw [h] at hperm
      constructor
      · constructor
        · intro hnone
          simp [parentOf, h] at hnone
        · intro hempty
          rw [hempty] at hperm
          exact absurd hperm.eq_nil (by simp)
      · intro m hm
        simp only [parentOf, h] at hm
        rw [Option.some.injEq] at hm
        refine ⟨hperm.mem_iff.mp (hm ▸ hmem), fun x hx => ?_⟩
        exact hm ▸ hle x (hperm.mem_iff.mpr hx)
  · cases h : candidatesOf areas (pyMinNat g) with
    | nil => simp [assignTarget, h] at ht
    | cons c rest =>
      simp only [assignTarget, h, Option.some.injEq] at ht
      obtain ⟨hmem, hle⟩ := minBy2From_spec rest c
      subst ht
      exact ⟨hmem, hle⟩
  · cases h : candidatesOf areas (pyMinNat g) with
    | nil => simp [assignTarget, h]
    | cons c rest => simp [assignTarget, h]
  · cases areas with
    | nil => exact absurd rfl hne
    | cons a as =>
      simp only [assign_service_groups_to_areas, List.isEmpty_cons,
        Bool.false_eq_true, if_false]
      exact assignGo_eq (a :: as) groups

/-- C9 witness: with areas [(0x0000, 0x00FF), (0x0010, 0x0020)], the second
area's only container is the first, so the parent assigned to
(0x0010, 0x0020) is (0x0000, 0x00FF), the smallest-span containing area. -/
theorem build_hierarchy_spec_witness :
    ((0, 255) : Nat × Nat) ∈ containersOf [(0, 255), (16, 32)] (16, 32) ∧
      ∀ x ∈ containersOf [(0, 255), (16, 32)] ((16, 32) : Nat × Nat),
        k2le (0, 255) x :=
  ((build_hierarchy_spec [(0, 255), (16, 32)] []).1 (16, 32)).2 (0, 255) (by decide)

/-- C3 amended: the grouper extends the open group exactly when
`(code >> 4) = (last >> 4)` and either bit 0 of that shifted value (bit 4 of
the original code, the purse-type marker) is set or
`(code >> 2) = (last >> 2)`; in every other case it closes the group and
starts a new one — i.e. the source grouping coincides with the rule-driven
grouping for every input list. -/
theorem group_overlapped_services_eq_rule :
    ∀ l : List Nat, group_overlapped_services l = group_by_rule l := by
  intro l
  exact groupGo_eq_ruleGroupGo l [] []

end FelicaDumper
